import Mathlib

/-!
Shallow embedding of the bidirectional-hashmap crate (src/lib.rs).

The Rust code stores two `HashMap`s over the same pair set.  We model a
`HashMap` as an association list with pairwise-distinct keys; `HashMap::get`
is first-match lookup, `HashMap::insert` replaces the binding of an existing
key in place, `HashMap::remove` deletes the binding and returns it, and
`HashMap::len` is the list length.  The trait bounds `Copy + Eq + Hash` of
the source become `DecidableEq`.

The `assert!` inside the free function `insert` aborts the program when its
condition is false.  Fallible operations therefore return an `Except` value:
`Except.ok` is normal completion, and `Except.error st` models the panic,
carrying the state `st` of the two tables at the moment the assertion fails
(no mutation happens after a failed assertion).
-/

namespace BidirectionalHashmap

set_option linter.unusedSectionVars false

variable {T U : Type} [DecidableEq T] [DecidableEq U]

/-- Model of `HashMap::get`: first binding of `key`, if any. -/
def getm : List (T × U) → T → Option U
  | [], _ => none
  | p :: t, key => if p.1 = key then some p.2 else getm t key

/-- Model of `HashMap::insert`: replace the binding of `key` in place, or
append a fresh binding at the end. -/
def setm : List (T × U) → T → U → List (T × U)
  | [], key, v => [(key, v)]
  | p :: t, key, v => if p.1 = key then (key, v) :: t else p :: setm t key v

/-- Model of `HashMap::remove` (the resulting map): drop the binding of
`key`, if present. -/
def erasem : List (T × U) → T → List (T × U)
  | [], _ => []
  | p :: t, key => if p.1 = key then t else p :: erasem t key

/-- Model of `HashMap::contains_key`. -/
def hasKey (map : List (T × U)) (key : T) : Bool :=
  (getm map key).isSome

/-- Keys of a table, in order. -/
def keysOf (map : List (T × U)) : List T :=
  map.map Prod.fst

/-- The free function `get` of lib.rs: `map.get(key)`. -/
def get (map : List (T × U)) (key : T) : Option U :=
  getm map key

/-- Condition of the `assert!` in the free function `insert` of lib.rs:
`(!map1.contains_key(&v1) && !map2.contains_key(&v2)) ||
 (map1.get(&v1).is_some() && map1.get(&v1).unwrap() == &v2)`. -/
def insertOk (map1 : List (T × U)) (map2 : List (U × T)) (v1 : T) (v2 : U) : Bool :=
  (!hasKey map1 v1 && !hasKey map2 v2) ||
    ((getm map1 v1).isSome && getm map1 v1 == some v2)

/-- The free function `insert` of lib.rs.  If the assertion holds, both
tables receive the pair; otherwise the program panics with the tables
untouched (`Except.error` carries the state at the abort). -/
def insert (map1 : List (T × U)) (map2 : List (U × T)) (v1 : T) (v2 : U) :
    Except (List (T × U) × List (U × T)) (List (T × U) × List (U × T)) :=
  if insertOk map1 map2 v1 v2 then
    Except.ok (setm map1 v1 v2, setm map2 v2 v1)
  else
    Except.error (map1, map2)

/-- The free function `remove` of lib.rs: if `key` is bound in `map1`, the
mirror binding of its value is dropped from `map2`; then the binding of
`key` is dropped from `map1` and returned. -/
def remove (map1 : List (T × U)) (map2 : List (U × T)) (key : T) :
    Option U × List (T × U) × List (U × T) :=
  let map2r :=
    match getm map1 key with
    | some value => erasem map2 value
    | none => map2
  (getm map1 key, erasem map1 key, map2r)

/-- The free function `update` of lib.rs: remove the old binding of `v1`,
then insert `(v1, v2)`; the old value is returned.  A panic of the inner
`insert` propagates, carrying the post-remove state. -/
def update (map1 : List (T × U)) (map2 : List (U × T)) (v1 : T) (v2 : U) :
    Except (List (T × U) × List (U × T)) (Option U × List (T × U) × List (U × T)) :=
  match remove map1 map2 v1 with
  | (old, m1, m2) =>
    match insert m1 m2 v1 v2 with
    | Except.ok (n1, n2) => Except.ok (old, n1, n2)
    | Except.error e => Except.error e

/-- The `BiMap` struct of lib.rs: two mirrored tables. -/
structure BiMap (T U : Type) where
  left_to_right : List (T × U)
  right_to_left : List (U × T)
deriving DecidableEq, Repr

/-- `BiMap::new`. -/
def BiMap.new : BiMap T U :=
  ⟨[], []⟩

/-- `BiMap::get_key`. -/
def BiMap.get_key (m : BiMap T U) (l : T) : Option U :=
  get m.left_to_right l

/-- `BiMap::get_value`. -/
def BiMap.get_value (m : BiMap T U) (r : U) : Option T :=
  get m.right_to_left r

/-- `BiMap::insert_key`; a panic of the free `insert` carries the state of
the whole map at the abort. -/
def BiMap.insert_key (m : BiMap T U) (l : T) (r : U) :
    Except (BiMap T U) (BiMap T U) :=
  match BidirectionalHashmap.insert m.left_to_right m.right_to_left l r with
  | Except.ok (a, b) => Except.ok ⟨a, b⟩
  | Except.error (a, b) => Except.error ⟨a, b⟩

/-- `BiMap::insert_value`: the free `insert` run with the tables swapped. -/
def BiMap.insert_value (m : BiMap T U) (r : U) (l : T) :
    Except (BiMap T U) (BiMap T U) :=
  match BidirectionalHashmap.insert m.right_to_left m.left_to_right r l with
  | Except.ok (b, a) => Except.ok ⟨a, b⟩
  | Except.error (b, a) => Except.error ⟨a, b⟩

/-- `BiMap::update_key`. -/
def BiMap.update_key (m : BiMap T U) (l : T) (r : U) :
    Except (BiMap T U) (Option U × BiMap T U) :=
  match BidirectionalHashmap.update m.left_to_right m.right_to_left l r with
  | Except.ok (old, a, b) => Except.ok (old, ⟨a, b⟩)
  | Except.error (a, b) => Except.error ⟨a, b⟩

/-- `BiMap::update_value`. -/
def BiMap.update_value (m : BiMap T U) (r : U) (l : T) :
    Except (BiMap T U) (Option T × BiMap T U) :=
  match BidirectionalHashmap.update m.right_to_left m.left_to_right r l with
  | Except.ok (old, b, a) => Except.ok (old, ⟨a, b⟩)
  | Except.error (b, a) => Except.error ⟨a, b⟩

/-- `BiMap::remove`. -/
def BiMap.remove (m : BiMap T U) (l : T) : Option U × BiMap T U :=
  match BidirectionalHashmap.remove m.left_to_right m.right_to_left l with
  | (old, a, b) => (old, ⟨a, b⟩)

/-- `BiMap::remove_value`. -/
def BiMap.remove_value (m : BiMap T U) (r : U) : Option T × BiMap T U :=
  match BidirectionalHashmap.remove m.right_to_left m.left_to_right r with
  | (old, b, a) => (old, ⟨a, b⟩)

/-- `BiMap::len`: the length of the forward table. -/
def BiMap.len (m : BiMap T U) : Nat :=
  m.left_to_right.length

/-- The two tables are well formed and exact mirrors of each other: keys of
each table are pairwise distinct and the tables are inverse lookups. -/
def Mirror (map1 : List (T × U)) (map2 : List (U × T)) : Prop :=
  (keysOf map1).Nodup ∧ (keysOf map2).Nodup ∧
    ∀ k v, getm map1 k = some v ↔ getm map2 v = some k

/-- The representation invariant of a `BiMap`. -/
def BiMap.Inv (m : BiMap T U) : Prop :=
  Mirror m.left_to_right m.right_to_left

instance [Fintype T] [Fintype U] (map1 : List (T × U)) (map2 : List (U × T)) :
    Decidable (Mirror map1 map2) := by
  unfold Mirror
  infer_instance

instance [Fintype T] [Fintype U] (m : BiMap T U) : Decidable m.Inv := by
  unfold BiMap.Inv
  infer_instance

/-- States reachable from `BiMap::new` by public operations that return
normally (without panicking). -/
inductive Reachable : BiMap T U → Prop where
  | new : Reachable BiMap.new
  | insert_key {m : BiMap T U} {l : T} {r : U} {m2 : BiMap T U} :
      Reachable m → m.insert_key l r = Except.ok m2 → Reachable m2
  | insert_value {m : BiMap T U} {r : U} {l : T} {m2 : BiMap T U} :
      Reachable m → m.insert_value r l = Except.ok m2 → Reachable m2
  | update_key {m : BiMap T U} {l : T} {r : U} {o : Option U} {m2 : BiMap T U} :
      Reachable m → m.update_key l r = Except.ok (o, m2) → Reachable m2
  | update_value {m : BiMap T U} {r : U} {l : T} {o : Option T} {m2 : BiMap T U} :
      Reachable m → m.update_value r l = Except.ok (o, m2) → Reachable m2
  | remove {m : BiMap T U} (l : T) :
      Reachable m → Reachable (m.remove l).2
  | remove_value {m : BiMap T U} (r : U) :
      Reachable m → Reachable (m.remove_value r).2

/-- Inserting a list of pairs in order, stopping at the first panic. -/
def insertAll (m : BiMap T U) : List (T × U) → Except (BiMap T U) (BiMap T U)
  | [] => Except.ok m
  | p :: rest =>
    match m.insert_key p.1 p.2 with
    | Except.ok m2 => insertAll m2 rest
    | Except.error e => Except.error e

/-- Removing a list of keys in order via `BiMap::remove`. -/
def removeAll (m : BiMap T U) : List T → BiMap T U
  | [] => m
  | k :: rest => removeAll (m.remove k).2 rest

/-! ### Basic lemmas about the association-list model -/

theorem getm_cons (p : T × U) (t : List (T × U)) (key : T) :
    getm (p :: t) key = if p.1 = key then some p.2 else getm t key :=
  rfl

theorem getm_setm_self (m : List (T × U)) (key : T) (v : U) :
    getm (setm m key v) key = some v := by
  induction m with
  | nil => simp [setm, getm]
  | cons p t ih =>
    by_cases h : p.1 = key
    · simp [setm, h, getm]
    · simp [setm, h, getm, ih]

theorem getm_setm_ne {m : List (T × U)} {key a : T} (v : U) (h : a ≠ key) :
    getm (setm m key v) a = getm m a := by
  induction m with
  | nil => simp [setm, getm, Ne.symm h]
  | cons p t ih =>
    by_cases hp : p.1 = key
    · subst hp
      simp [setm, getm, Ne.symm h]
    · simp only [setm, if_neg hp, getm_cons, ih]

theorem getm_eq_none_of_not_mem {m : List (T × U)} {key : T}
    (h : key ∉ keysOf m) : getm m key = none := by
  induction m with
  | nil => rfl
  | cons p t ih =>
    rw [keysOf, List.map_cons, List.mem_cons, not_or] at h
    rw [getm_cons, if_neg (Ne.symm h.1)]
    exact ih h.2

theorem mem_keysOf_of_getm {m : List (T × U)} {key : T} {v : U}
    (h : getm m key = some v) : key ∈ keysOf m := by
  by_contra hmem
  rw [getm_eq_none_of_not_mem hmem] at h
  exact Option.noConfusion h

theorem eq_nil_of_getm_eq_none {m : List (T × U)}
    (h : ∀ key, getm m key = none) : m = [] := by
  cases m with
  | nil => rfl
  | cons p t =>
    have := h p.1
    simp [getm_cons] at this

theorem getm_erasem_ne {m : List (T × U)} {key a : T} (h : a ≠ key) :
    getm (erasem m key) a = getm m a := by
  induction m with
  | nil => rfl
  | cons p t ih =>
    by_cases hp : p.1 = key
    · subst hp
      simp [erasem, getm_cons, Ne.symm h]
    · simp only [erasem, if_neg hp, getm_cons, ih]

theorem getm_erasem_self {m : List (T × U)} (hm : (keysOf m).Nodup) (key : T) :
    getm (erasem m key) key = none := by
  induction m with
  | nil => rfl
  | cons p t ih =>
    simp only [keysOf, List.map_cons, List.nodup_cons] at hm
    by_cases hp : p.1 = key
    · subst hp
      simp only [erasem, if_pos rfl]
      exact getm_eq_none_of_not_mem (by simpa [keysOf] using hm.1)
    · simp only [erasem, if_neg hp, getm_cons, if_neg hp]
      exact ih hm.2

theorem erasem_of_getm_eq_none {m : List (T × U)} {key : T}
    (h : getm m key = none) : erasem m key = m := by
  induction m with
  | nil => rfl
  | cons p t ih =>
    simp only [getm_cons] at h
    by_cases hp : p.1 = key
    · simp [hp] at h
    · simp only [erasem, if_neg hp]
      rw [ih (by simpa [hp] using h)]

theorem setm_of_getm_eq_some {m : List (T × U)} {key : T} {v : U}
    (h : getm m key = some v) : setm m key v = m := by
  induction m with
  | nil => simp [getm] at h
  | cons p t ih =>
    rw [getm_cons] at h
    by_cases hp : p.1 = key
    · rw [if_pos hp] at h
      have hv : p.2 = v := Option.some_injective _ h
      rw [setm, if_pos hp, ← hp, ← hv]
    · rw [if_neg hp] at h
      rw [setm, if_neg hp, ih h]

theorem mem_keysOf_setm {m : List (T × U)} {key a : T} {v : U}
    (h : a ∈ keysOf (setm m key v)) : a = key ∨ a ∈ keysOf m := by
  induction m with
  | nil =>
    rw [setm, keysOf, List.map_cons, List.mem_cons] at h
    rcases h with h | h
    · exact Or.inl h
    · exact absurd h (List.not_mem_nil a)
  | cons p t ih =>
    by_cases hp : p.1 = key
    · rw [setm, if_pos hp, keysOf, List.map_cons, List.mem_cons] at h
      rw [keysOf, List.map_cons, List.mem_cons]
      rcases h with h | h
      · exact Or.inl h
      · exact Or.inr (Or.inr h)
    · rw [setm, if_neg hp, keysOf, List.map_cons, List.mem_cons] at h
      rw [keysOf, List.map_cons, List.mem_cons]
      rcases h with h | h
      · exact Or.inr (Or.inl h)
      · rcases ih h with h | h
        · exact Or.inl h
        · exact Or.inr (Or.inr h)

theorem keysOf_erasem_sublist (m : List (T × U)) (key : T) :
    List.Sublist (keysOf (erasem m key)) (keysOf m) := by
  induction m with
  | nil => exact List.Sublist.refl _
  | cons p t ih =>
    by_cases hp : p.1 = key
    · rw [erasem, if_pos hp]
      show List.Sublist (keysOf t) (List.map Prod.fst (p :: t))
      rw [List.map_cons]
      exact List.sublist_cons_of_sublist _ (List.Sublist.refl _)
    · rw [erasem, if_neg hp, keysOf, List.map_cons, keysOf, List.map_cons]
      exact List.Sublist.cons₂ _ ih

theorem nodup_keysOf_erasem {m : List (T × U)} (hm : (keysOf m).Nodup)
    (key : T) : (keysOf (erasem m key)).Nodup :=
  (keysOf_erasem_sublist m key).nodup hm

theorem nodup_keysOf_setm {m : List (T × U)} (hm : (keysOf m).Nodup)
    (key : T) (v : U) : (keysOf (setm m key v)).Nodup := by
  induction m with
  | nil =>
    rw [setm, keysOf, List.map_cons]
    exact List.nodup_singleton key
  | cons p t ih =>
    rw [keysOf, List.map_cons, List.nodup_cons] at hm
    by_cases hp : p.1 = key
    · rw [setm, if_pos hp, keysOf, List.map_cons, List.nodup_cons]
      exact ⟨fun hmem => hm.1 (hp ▸ hmem), hm.2⟩
    · rw [setm, if_neg hp, keysOf, List.map_cons, List.nodup_cons]
      refine ⟨?_, ih hm.2⟩
      intro hmem
      rcases mem_keysOf_setm hmem with h | h
      · exact hp h
      · exact hm.1 h

theorem length_setm_of_getm_eq_none {m : List (T × U)} {key : T}
    (h : getm m key = none) (v : U) :
    (setm m key v).length = m.length + 1 := by
  induction m with
  | nil => rfl
  | cons p t ih =>
    simp only [getm_cons] at h
    by_cases hp : p.1 = key
    · simp [hp] at h
    · simp only [setm, if_neg hp, List.length_cons]
      rw [ih (by simpa [hp] using h)]

theorem length_setm_of_getm_eq_some {m : List (T × U)} {key : T} {w : U}
    (h : getm m key = some w) (v : U) :
    (setm m key v).length = m.length := by
  induction m with
  | nil => simp [getm] at h
  | cons p t ih =>
    simp only [getm_cons] at h
    by_cases hp : p.1 = key
    · simp [setm, hp]
    · simp only [setm, if_neg hp, List.length_cons]
      rw [ih (by simpa [hp] using h)]

theorem length_erasem_of_getm_eq_some {m : List (T × U)} {key : T} {w : U}
    (h : getm m key = some w) :
    (erasem m key).length + 1 = m.length := by
  induction m with
  | nil => simp [getm] at h
  | cons p t ih =>
    simp only [getm_cons] at h
    by_cases hp : p.1 = key
    · simp [erasem, hp]
    · simp only [erasem, if_neg hp, List.length_cons]
      rw [ih (by simpa [hp] using h)]

/-! ### The mirror invariant and its preservation -/

theorem Mirror.symm {m1 : List (T × U)} {m2 : List (U × T)} (h : Mirror m1 m2) :
    Mirror m2 m1 :=
  ⟨h.2.1, h.1, fun v k => (h.2.2 k v).symm⟩

theorem insertOk_iff {m1 : List (T × U)} {m2 : List (U × T)} {v1 : T} {v2 : U} :
    insertOk m1 m2 v1 v2 = true ↔
      (getm m1 v1 = none ∧ getm m2 v2 = none) ∨ getm m1 v1 = some v2 := by
  unfold insertOk hasKey
  cases h1 : getm m1 v1 <;> cases h2 : getm m2 v2 <;> simp

theorem insert_eq_ok {m1 : List (T × U)} {m2 : List (U × T)} {v1 : T} {v2 : U}
    (hc : (getm m1 v1 = none ∧ getm m2 v2 = none) ∨ getm m1 v1 = some v2) :
    BidirectionalHashmap.insert m1 m2 v1 v2 =
      Except.ok (setm m1 v1 v2, setm m2 v2 v1) := by
  unfold BidirectionalHashmap.insert
  rw [if_pos (insertOk_iff.mpr hc)]

theorem insert_eq_error {m1 : List (T × U)} {m2 : List (U × T)} {v1 : T} {v2 : U}
    (hc : ¬ ((getm m1 v1 = none ∧ getm m2 v2 = none) ∨ getm m1 v1 = some v2)) :
    BidirectionalHashmap.insert m1 m2 v1 v2 = Except.error (m1, m2) := by
  unfold BidirectionalHashmap.insert
  rw [if_neg (fun h => hc (insertOk_iff.mp h))]

theorem insert_ok_inv {m1 : List (T × U)} {m2 : List (U × T)} {v1 : T} {v2 : U}
    {n1 : List (T × U)} {n2 : List (U × T)}
    (h : BidirectionalHashmap.insert m1 m2 v1 v2 = Except.ok (n1, n2)) :
    ((getm m1 v1 = none ∧ getm m2 v2 = none) ∨ getm m1 v1 = some v2) ∧
      n1 = setm m1 v1 v2 ∧ n2 = setm m2 v2 v1 := by
  unfold BidirectionalHashmap.insert at h
  by_cases hc : insertOk m1 m2 v1 v2 = true
  · rw [if_pos hc, Except.ok.injEq, Prod.mk.injEq] at h
    exact ⟨insertOk_iff.mp hc, h.1.symm, h.2.symm⟩
  · rw [if_neg hc] at h
    exact Except.noConfusion h

theorem insert_error_inv {m1 : List (T × U)} {m2 : List (U × T)} {v1 : T} {v2 : U}
    {e : List (T × U) × List (U × T)}
    (h : BidirectionalHashmap.insert m1 m2 v1 v2 = Except.error e) :
    ¬ ((getm m1 v1 = none ∧ getm m2 v2 = none) ∨ getm m1 v1 = some v2) ∧
      e = (m1, m2) := by
  unfold BidirectionalHashmap.insert at h
  by_cases hc : insertOk m1 m2 v1 v2 = true
  · rw [if_pos hc] at h
    exact Except.noConfusion h
  · rw [if_neg hc, Except.error.injEq] at h
    exact ⟨fun hp => hc (insertOk_iff.mpr hp), h.symm⟩

theorem remove_eq_none {m1 : List (T × U)} {m2 : List (U × T)} {key : T}
    (h : getm m1 key = none) :
    BidirectionalHashmap.remove m1 m2 key = (none, m1, m2) := by
  unfold BidirectionalHashmap.remove
  rw [h, erasem_of_getm_eq_none h]

theorem remove_eq_some {m1 : List (T × U)} {m2 : List (U × T)} {key : T} {v : U}
    (h : getm m1 key = some v) :
    BidirectionalHashmap.remove m1 m2 key =
      (some v, erasem m1 key, erasem m2 v) := by
  unfold BidirectionalHashmap.remove
  rw [h]

theorem mirror_setm {m1 : List (T × U)} {m2 : List (U × T)} {v1 : T} {v2 : U}
    (h : Mirror m1 m2)
    (hc : (getm m1 v1 = none ∧ getm m2 v2 = none) ∨ getm m1 v1 = some v2) :
    Mirror (setm m1 v1 v2) (setm m2 v2 v1) := by
  obtain ⟨hn1, hn2, hm⟩ := h
  refine ⟨nodup_keysOf_setm hn1 v1 v2, nodup_keysOf_setm hn2 v2 v1, ?_⟩
  intro a b
  by_cases ha : a = v1 <;> by_cases hb : b = v2
  · rw [ha, hb, getm_setm_self, getm_setm_self]
    simp
  · rw [ha, getm_setm_self, getm_setm_ne v1 hb]
    constructor
    · intro hsome
      exact absurd (Option.some_injective _ hsome).symm hb
    · intro h2
      have h3 := (hm v1 b).mpr h2
      rcases hc with ⟨hc1, _⟩ | hc1
      · rw [h3] at hc1
        exact Option.noConfusion hc1
      · rw [h3] at hc1
        exact absurd (Option.some_injective _ hc1) hb
  · rw [hb, getm_setm_ne v2 ha, getm_setm_self]
    constructor
    · intro h1
      have h2 := (hm a v2).mp h1
      rcases hc with ⟨_, hc2⟩ | hc1
      · rw [h2] at hc2
        exact Option.noConfusion hc2
      · have h3 := (hm v1 v2).mp hc1
        rw [h2] at h3
        exact absurd (Option.some_injective _ h3) ha
    · intro hsome
      exact absurd (Option.some_injective _ hsome).symm ha
  · rw [getm_setm_ne v2 ha, getm_setm_ne v1 hb]
    exact hm a b

theorem mirror_insert {m1 : List (T × U)} {m2 : List (U × T)} {v1 : T} {v2 : U}
    {n1 : List (T × U)} {n2 : List (U × T)} (h : Mirror m1 m2)
    (hok : BidirectionalHashmap.insert m1 m2 v1 v2 = Except.ok (n1, n2)) :
    Mirror n1 n2 := by
  obtain ⟨hc, rfl, rfl⟩ := insert_ok_inv hok
  exact mirror_setm h hc

theorem mirror_remove {m1 : List (T × U)} {m2 : List (U × T)}
    (h : Mirror m1 m2) (key : T) :
    Mirror (BidirectionalHashmap.remove m1 m2 key).2.1
      (BidirectionalHashmap.remove m1 m2 key).2.2 := by
  obtain ⟨hn1, hn2, hm⟩ := h
  cases hk : getm m1 key with
  | none =>
    rw [remove_eq_none hk]
    exact ⟨hn1, hn2, hm⟩
  | some v =>
    rw [remove_eq_some hk]
    show Mirror (erasem m1 key) (erasem m2 v)
    refine ⟨nodup_keysOf_erasem hn1 key, nodup_keysOf_erasem hn2 v, ?_⟩
    intro a b
    by_cases ha : a = key <;> by_cases hb : b = v
    · rw [ha, hb, getm_erasem_self hn1, getm_erasem_self hn2]
      simp
    · rw [ha, getm_erasem_self hn1, getm_erasem_ne hb]
      constructor
      · intro h2
        exact Option.noConfusion h2
      · intro h2
        have h3 := (hm key b).mpr h2
        rw [hk] at h3
        exact absurd (Option.some_injective _ h3).symm hb
    · rw [hb, getm_erasem_ne ha, getm_erasem_self hn2]
      constructor
      · intro h1
        have h2 := (hm a v).mp h1
        have h3 := (hm key v).mp hk
        rw [h2] at h3
        exact absurd (Option.some_injective _ h3) ha
      · intro h2
        exact Option.noConfusion h2
    · rw [getm_erasem_ne ha, getm_erasem_ne hb]
      exact hm a b

theorem mirror_cons_tail {p : T × U} {t : List (T × U)} {m2 : List (U × T)}
    (h : Mirror (p :: t) m2) : Mirror t (erasem m2 p.2) := by
  obtain ⟨hn1, hn2, hm⟩ := h
  rw [keysOf, List.map_cons, List.nodup_cons] at hn1
  have hhead : getm (p :: t) p.1 = some p.2 := by rw [getm_cons, if_pos rfl]
  have hm2 : getm m2 p.2 = some p.1 := (hm p.1 p.2).mp hhead
  refine ⟨hn1.2, nodup_keysOf_erasem hn2 p.2, ?_⟩
  intro a b
  constructor
  · intro h1
    have hak : a ≠ p.1 := by
      intro e
      rw [e] at h1
      exact hn1.1 (mem_keysOf_of_getm h1)
    have h2 : getm (p :: t) a = some b := by
      rw [getm_cons, if_neg (Ne.symm hak)]
      exact h1
    have h3 := (hm a b).mp h2
    have hbv : b ≠ p.2 := by
      intro e
      rw [e, hm2] at h3
      exact hak (Option.some_injective _ h3).symm
    rw [getm_erasem_ne hbv]
    exact h3
  · intro h1
    have hbv : b ≠ p.2 := by
      intro e
      rw [e, getm_erasem_self hn2] at h1
      exact Option.noConfusion h1
    rw [getm_erasem_ne hbv] at h1
    have h2 := (hm a b).mpr h1
    rw [getm_cons] at h2
    by_cases hap : p.1 = a
    · rw [if_pos hap] at h2
      exact absurd (Option.some_injective _ h2).symm hbv
    · rw [if_neg hap] at h2
      exact h2

theorem Mirror.length_eq {m1 : List (T × U)} :
    ∀ {m2 : List (U × T)}, Mirror m1 m2 → m1.length = m2.length := by
  induction m1 with
  | nil =>
    intro m2 h
    have hall : ∀ b, getm m2 b = none := by
      intro b
      cases hb : getm m2 b with
      | none => rfl
      | some a => exact Option.noConfusion ((h.2.2 a b).mpr hb)
    rw [eq_nil_of_getm_eq_none hall]
    rfl
  | cons p t ih =>
    intro m2 h
    have htail := mirror_cons_tail h
    have hhead : getm (p :: t) p.1 = some p.2 := by rw [getm_cons, if_pos rfl]
    have hm2 : getm m2 p.2 = some p.1 := (h.2.2 p.1 p.2).mp hhead
    have hlen := length_erasem_of_getm_eq_some hm2
    rw [List.length_cons, ih htail, hlen]

/-! ### Characterizing `update` -/

theorem update_of_present {m1 : List (T × U)} {m2 : List (U × T)} {v1 : T}
    {old : U} (v2 : U) (h : getm m1 v1 = some old) :
    BidirectionalHashmap.update m1 m2 v1 v2 =
      match BidirectionalHashmap.insert (erasem m1 v1) (erasem m2 old) v1 v2 with
      | Except.ok (n1, n2) => Except.ok (some old, n1, n2)
      | Except.error e => Except.error e := by
  unfold BidirectionalHashmap.update
  rw [remove_eq_some h]

theorem update_of_absent {m1 : List (T × U)} {m2 : List (U × T)} {v1 : T}
    (v2 : U) (h : getm m1 v1 = none) :
    BidirectionalHashmap.update m1 m2 v1 v2 =
      match BidirectionalHashmap.insert m1 m2 v1 v2 with
      | Except.ok (n1, n2) => Except.ok (none, n1, n2)
      | Except.error e => Except.error e := by
  unfold BidirectionalHashmap.update
  rw [remove_eq_none h]

theorem mirror_update_ok {m1 : List (T × U)} {m2 : List (U × T)} {v1 : T}
    {v2 : U} {o : Option U} {n1 : List (T × U)} {n2 : List (U × T)}
    (h : Mirror m1 m2)
    (hok : BidirectionalHashmap.update m1 m2 v1 v2 = Except.ok (o, n1, n2)) :
    Mirror n1 n2 := by
  cases hk : getm m1 v1 with
  | none =>
    rw [update_of_absent v2 hk] at hok
    cases hi : BidirectionalHashmap.insert m1 m2 v1 v2 with
    | ok p =>
      obtain ⟨a, b⟩ := p
      rw [hi, Except.ok.injEq, Prod.mk.injEq, Prod.mk.injEq] at hok
      obtain ⟨-, ha, hb⟩ := hok
      rw [← ha, ← hb]
      exact mirror_insert h hi
    | error p =>
      rw [hi] at hok
      exact Except.noConfusion hok
  | some w =>
    have hrem := mirror_remove h v1
    rw [remove_eq_some hk] at hrem
    rw [update_of_present v2 hk] at hok
    cases hi : BidirectionalHashmap.insert (erasem m1 v1) (erasem m2 w) v1 v2 with
    | ok p =>
      obtain ⟨a, b⟩ := p
      rw [hi, Except.ok.injEq, Prod.mk.injEq, Prod.mk.injEq] at hok
      obtain ⟨-, ha, hb⟩ := hok
      rw [← ha, ← hb]
      exact mirror_insert hrem hi
    | error p =>
      rw [hi] at hok
      exact Except.noConfusion hok

/-! ### Lifting to `BiMap` -/

theorem insert_key_eq_ok {m : BiMap T U} {l : T} {r : U} {n1 : List (T × U)}
    {n2 : List (U × T)}
    (h : BidirectionalHashmap.insert m.left_to_right m.right_to_left l r =
      Except.ok (n1, n2)) :
    m.insert_key l r = Except.ok ⟨n1, n2⟩ := by
  unfold BiMap.insert_key
  rw [h]

theorem insert_key_eq_error {m : BiMap T U} {l : T} {r : U} {n1 : List (T × U)}
    {n2 : List (U × T)}
    (h : BidirectionalHashmap.insert m.left_to_right m.right_to_left l r =
      Except.error (n1, n2)) :
    m.insert_key l r = Except.error ⟨n1, n2⟩ := by
  unfold BiMap.insert_key
  rw [h]

theorem insert_value_eq_ok {m : BiMap T U} {r : U} {l : T} {n2 : List (U × T)}
    {n1 : List (T × U)}
    (h : BidirectionalHashmap.insert m.right_to_left m.left_to_right r l =
      Except.ok (n2, n1)) :
    m.insert_value r l = Except.ok ⟨n1, n2⟩ := by
  unfold BiMap.insert_value
  rw [h]

theorem insert_value_eq_error {m : BiMap T U} {r : U} {l : T} {n2 : List (U × T)}
    {n1 : List (T × U)}
    (h : BidirectionalHashmap.insert m.right_to_left m.left_to_right r l =
      Except.error (n2, n1)) :
    m.insert_value r l = Except.error ⟨n1, n2⟩ := by
  unfold BiMap.insert_value
  rw [h]

theorem update_key_eq_ok {m : BiMap T U} {l : T} {r : U} {o : Option U}
    {n1 : List (T × U)} {n2 : List (U × T)}
    (h : BidirectionalHashmap.update m.left_to_right m.right_to_left l r =
      Except.ok (o, n1, n2)) :
    m.update_key l r = Except.ok (o, ⟨n1, n2⟩) := by
  unfold BiMap.update_key
  rw [h]

theorem update_key_eq_error {m : BiMap T U} {l : T} {r : U} {n1 : List (T × U)}
    {n2 : List (U × T)}
    (h : BidirectionalHashmap.update m.left_to_right m.right_to_left l r =
      Except.error (n1, n2)) :
    m.update_key l r = Except.error ⟨n1, n2⟩ := by
  unfold BiMap.update_key
  rw [h]

theorem update_value_eq_ok {m : BiMap T U} {r : U} {l : T} {o : Option T}
    {n2 : List (U × T)} {n1 : List (T × U)}
    (h : BidirectionalHashmap.update m.right_to_left m.left_to_right r l =
      Except.ok (o, n2, n1)) :
    m.update_value r l = Except.ok (o, ⟨n1, n2⟩) := by
  unfold BiMap.update_value
  rw [h]

theorem update_value_eq_error {m : BiMap T U} {r : U} {l : T} {n2 : List (U × T)}
    {n1 : List (T × U)}
    (h : BidirectionalHashmap.update m.right_to_left m.left_to_right r l =
      Except.error (n2, n1)) :
    m.update_value r l = Except.error ⟨n1, n2⟩ := by
  unfold BiMap.update_value
  rw [h]

theorem remove_key_def (m : BiMap T U) (l : T) :
    m.remove l = ((BidirectionalHashmap.remove m.left_to_right m.right_to_left l).1,
      ⟨(BidirectionalHashmap.remove m.left_to_right m.right_to_left l).2.1,
       (BidirectionalHashmap.remove m.left_to_right m.right_to_left l).2.2⟩) := by
  unfold BiMap.remove
  rcases hr : BidirectionalHashmap.remove m.left_to_right m.right_to_left l with
    ⟨old, a, b⟩
  rfl

theorem remove_value_def (m : BiMap T U) (r : U) :
    m.remove_value r =
      ((BidirectionalHashmap.remove m.right_to_left m.left_to_right r).1,
      ⟨(BidirectionalHashmap.remove m.right_to_left m.left_to_right r).2.2,
       (BidirectionalHashmap.remove m.right_to_left m.left_to_right r).2.1⟩) := by
  unfold BiMap.remove_value
  rcases hr : BidirectionalHashmap.remove m.right_to_left m.left_to_right r with
    ⟨old, b, a⟩
  rfl

theorem Inv_new : (BiMap.new : BiMap T U).Inv := by
  refine ⟨List.nodup_nil, List.nodup_nil, ?_⟩
  intro k v
  constructor <;> (intro h2; exact Option.noConfusion h2)

theorem Inv_insert_key {m m2 : BiMap T U} {l : T} {r : U} (h : m.Inv)
    (hok : m.insert_key l r = Except.ok m2) : m2.Inv := by
  cases hi : BidirectionalHashmap.insert m.left_to_right m.right_to_left l r with
  | ok p =>
    obtain ⟨n1, n2⟩ := p
    rw [insert_key_eq_ok hi, Except.ok.injEq] at hok
    rw [← hok]
    exact mirror_insert h hi
  | error p =>
    obtain ⟨n1, n2⟩ := p
    rw [insert_key_eq_error hi] at hok
    exact Except.noConfusion hok

theorem Inv_insert_value {m m2 : BiMap T U} {r : U} {l : T} (h : m.Inv)
    (hok : m.insert_value r l = Except.ok m2) : m2.Inv := by
  cases hi : BidirectionalHashmap.insert m.right_to_left m.left_to_right r l with
  | ok p =>
    obtain ⟨n2, n1⟩ := p
    rw [insert_value_eq_ok hi, Except.ok.injEq] at hok
    rw [← hok]
    exact Mirror.symm (mirror_insert (Mirror.symm h) hi)
  | error p =>
    obtain ⟨n2, n1⟩ := p
    rw [insert_value_eq_error hi] at hok
    exact Except.noConfusion hok

theorem Inv_update_key {m : BiMap T U} {l : T} {r : U} {o : Option U}
    {m2 : BiMap T U} (h : m.Inv)
    (hok : m.update_key l r = Except.ok (o, m2)) : m2.Inv := by
  cases hu : BidirectionalHashmap.update m.left_to_right m.right_to_left l r with
  | ok p =>
    obtain ⟨o2, n1, n2⟩ := p
    rw [update_key_eq_ok hu, Except.ok.injEq, Prod.mk.injEq] at hok
    rw [← hok.2]
    exact mirror_update_ok h hu
  | error p =>
    obtain ⟨n1, n2⟩ := p
    rw [update_key_eq_error hu] at hok
    exact Except.noConfusion hok

theorem Inv_update_value {m : BiMap T U} {r : U} {l : T} {o : Option T}
    {m2 : BiMap T U} (h : m.Inv)
    (hok : m.update_value r l = Except.ok (o, m2)) : m2.Inv := by
  cases hu : BidirectionalHashmap.update m.right_to_left m.left_to_right r l with
  | ok p =>
    obtain ⟨o2, n2, n1⟩ := p
    rw [update_value_eq_ok hu, Except.ok.injEq, Prod.mk.injEq] at hok
    rw [← hok.2]
    exact Mirror.symm (mirror_update_ok (Mirror.symm h) hu)
  | error p =>
    obtain ⟨n2, n1⟩ := p
    rw [update_value_eq_error hu] at hok
    exact Except.noConfusion hok

theorem Inv_remove {m : BiMap T U} (h : m.Inv) (l : T) : (m.remove l).2.Inv := by
  rw [remove_key_def]
  exact mirror_remove h l

theorem Inv_remove_value {m : BiMap T U} (h : m.Inv) (r : U) :
    (m.remove_value r).2.Inv := by
  rw [remove_value_def]
  exact Mirror.symm (mirror_remove (Mirror.symm h) r)

theorem get_key_eq (m : BiMap T U) (l : T) :
    m.get_key l = getm m.left_to_right l :=
  rfl

theorem get_value_eq (m : BiMap T U) (r : U) :
    m.get_value r = getm m.right_to_left r :=
  rfl

theorem len_eq (m : BiMap T U) : m.len = m.left_to_right.length :=
  rfl

/-! ### Claim theorems -/

/-- C3: every `BiMap` reachable from `new` by public operations that return
successfully satisfies the mirror invariant — each pair of the forward table
is mirrored in the backward table and vice versa — and the two tables have
the same cardinality. -/
theorem reachable_tables_mirror (m : BiMap T U) (h : Reachable m) :
    m.Inv ∧ m.left_to_right.length = m.right_to_left.length := by
  have hinv : m.Inv := by
    induction h with
    | new => exact Inv_new
    | insert_key hr hok ih => exact Inv_insert_key ih hok
    | insert_value hr hok ih => exact Inv_insert_value ih hok
    | update_key hr hok ih => exact Inv_update_key ih hok
    | update_value hr hok ih => exact Inv_update_value ih hok
    | remove l hr ih => exact Inv_remove ih l
    | remove_value r hr ih => exact Inv_remove_value ih r
  exact ⟨hinv, Mirror.length_eq hinv⟩

/-- Witness for C3 at a concrete reachable state. -/
theorem reachable_tables_mirror_witness :
    (⟨[(1, 2)], [(2, 1)]⟩ : BiMap Nat Nat).Inv ∧
      (⟨[(1, 2)], [(2, 1)]⟩ : BiMap Nat Nat).left_to_right.length =
        (⟨[(1, 2)], [(2, 1)]⟩ : BiMap Nat Nat).right_to_left.length :=
  reachable_tables_mirror ⟨[(1, 2)], [(2, 1)]⟩
    (Reachable.insert_key Reachable.new rfl)

/-- C6: re-inserting a pair that is already present is a silently succeeding
no-op: the second `insert_key` returns the very same map, so `len` and both
lookups are identical to a single insert. -/
theorem insert_key_idempotent {m m1 : BiMap T U} (hInv : m.Inv) {k : T} {v : U}
    (h1 : m.insert_key k v = Except.ok m1) :
    m1.insert_key k v = Except.ok m1 := by
  have hInv1 : m1.Inv := Inv_insert_key hInv h1
  cases hi : BidirectionalHashmap.insert m.left_to_right m.right_to_left k v with
  | ok p =>
    obtain ⟨n1, n2⟩ := p
    rw [insert_key_eq_ok hi, Except.ok.injEq] at h1
    obtain ⟨hc, hn1, hn2⟩ := insert_ok_inv hi
    have hget1 : getm m1.left_to_right k = some v := by
      rw [← h1]
      show getm n1 k = some v
      rw [hn1]
      exact getm_setm_self _ _ _
    have hget2 : getm m1.right_to_left v = some k := (hInv1.2.2 k v).mp hget1
    have hok2 : BidirectionalHashmap.insert m1.left_to_right m1.right_to_left k v
        = Except.ok (m1.left_to_right, m1.right_to_left) := by
      rw [insert_eq_ok (Or.inr hget1), setm_of_getm_eq_some hget1,
        setm_of_getm_eq_some hget2]
    rw [insert_key_eq_ok hok2]
  | error p =>
    obtain ⟨n1, n2⟩ := p
    rw [insert_key_eq_error hi] at h1
    exact Except.noConfusion h1

/-- Witness for C6 at a concrete map. -/
theorem insert_key_idempotent_witness :
    BiMap.insert_key (⟨[(0, 1)], [(1, 0)]⟩ : BiMap (Fin 3) (Fin 3)) 0 1 =
      Except.ok ⟨[(0, 1)], [(1, 0)]⟩ :=
  insert_key_idempotent (by decide)
    (show BiMap.insert_key (BiMap.new : BiMap (Fin 3) (Fin 3)) 0 1 =
      Except.ok ⟨[(0, 1)], [(1, 0)]⟩ from rfl)

/-- C7: `remove` on a present key returns the former value, deletes both
mirrored entries and decreases `len` by one; on an absent key it returns
none and leaves the map unchanged.  Symmetrically for `remove_value`. -/
theorem remove_semantics (m : BiMap T U) (hInv : m.Inv) :
    (∀ k v, m.get_key k = some v →
      (m.remove k).1 = some v ∧ (m.remove k).2.get_key k = none ∧
        (m.remove k).2.get_value v = none ∧ (m.remove k).2.len + 1 = m.len) ∧
    (∀ k, m.get_key k = none → m.remove k = (none, m)) ∧
    (∀ v k, m.get_value v = some k →
      (m.remove_value v).1 = some k ∧ (m.remove_value v).2.get_value v = none ∧
        (m.remove_value v).2.get_key k = none ∧
        (m.remove_value v).2.len + 1 = m.len) ∧
    (∀ v, m.get_value v = none → m.remove_value v = (none, m)) := by
  refine ⟨?_, ?_, ?_, ?_⟩
  · intro k v hk
    have hk2 : getm m.left_to_right k = some v := hk
    rw [remove_key_def, remove_eq_some hk2]
    refine ⟨rfl, ?_, ?_, ?_⟩
    · show getm (erasem m.left_to_right k) k = none
      exact getm_erasem_self hInv.1 k
    · show getm (erasem m.right_to_left v) v = none
      exact getm_erasem_self hInv.2.1 v
    · show (erasem m.left_to_right k).length + 1 = m.left_to_right.length
      exact length_erasem_of_getm_eq_some hk2
  · intro k hk
    have hk2 : getm m.left_to_right k = none := hk
    rw [remove_key_def, remove_eq_none hk2]
  · intro v k hv
    have hv2 : getm m.right_to_left v = some k := hv
    have hk2 : getm m.left_to_right k = some v := (hInv.2.2 k v).mpr hv2
    rw [remove_value_def, remove_eq_some hv2]
    refine ⟨rfl, ?_, ?_, ?_⟩
    · show getm (erasem m.right_to_left v) v = none
      exact getm_erasem_self hInv.2.1 v
    · show getm (erasem m.left_to_right k) k = none
      exact getm_erasem_self hInv.1 k
    · show (erasem m.left_to_right k).length + 1 = m.left_to_right.length
      exact length_erasem_of_getm_eq_some hk2
  · intro v hv
    have hv2 : getm m.right_to_left v = none := hv
    rw [remove_value_def, remove_eq_none hv2]

/-- Witness for C7 at a concrete map with a present key. -/
theorem remove_semantics_witness :
    ((⟨[(0, 1)], [(1, 0)]⟩ : BiMap (Fin 3) (Fin 3)).remove 0).1 = some 1 ∧
      ((⟨[(0, 1)], [(1, 0)]⟩ : BiMap (Fin 3) (Fin 3)).remove 0).2.get_key 0 = none ∧
      ((⟨[(0, 1)], [(1, 0)]⟩ : BiMap (Fin 3) (Fin 3)).remove 0).2.get_value 1 = none ∧
      ((⟨[(0, 1)], [(1, 0)]⟩ : BiMap (Fin 3) (Fin 3)).remove 0).2.len + 1 =
        (⟨[(0, 1)], [(1, 0)]⟩ : BiMap (Fin 3) (Fin 3)).len :=
  (remove_semantics ⟨[(0, 1)], [(1, 0)]⟩ (by decide)).1 0 1 (by decide)

/-- C8: on an invariant-satisfying map, `insert_value (v, k)` is semantically
identical to `insert_key (k, v)`: the two calls return the same result —
they succeed with equal states and fail under exactly the same condition. -/
theorem insert_value_eq_insert_key_sem (m : BiMap T U) (hInv : m.Inv)
    (l : T) (r : U) :
    m.insert_value r l = m.insert_key l r := by
  have hiff : insertOk m.right_to_left m.left_to_right r l = true ↔
      insertOk m.left_to_right m.right_to_left l r = true := by
    rw [insertOk_iff, insertOk_iff]
    constructor
    · rintro (⟨ha, hb⟩ | hsome)
      · exact Or.inl ⟨hb, ha⟩
      · exact Or.inr ((hInv.2.2 l r).mpr hsome)
    · rintro (⟨ha, hb⟩ | hsome)
      · exact Or.inl ⟨hb, ha⟩
      · exact Or.inr ((hInv.2.2 l r).mp hsome)
  have hcond : insertOk m.right_to_left m.left_to_right r l =
      insertOk m.left_to_right m.right_to_left l r := by
    cases h2 : insertOk m.left_to_right m.right_to_left l r with
    | true => exact hiff.mpr h2
    | false =>
      cases h3 : insertOk m.right_to_left m.left_to_right r l with
      | true =>
        have h4 := hiff.mp h3
        rw [h2] at h4
        exact Bool.noConfusion h4
      | false => rfl
  unfold BiMap.insert_value BiMap.insert_key BidirectionalHashmap.insert
  rw [hcond]
  cases h2 : insertOk m.left_to_right m.right_to_left l r <;> rfl

/-- Witness for C8 at a concrete map. -/
theorem insert_value_eq_insert_key_sem_witness :
    BiMap.insert_value (⟨[(0, 1)], [(1, 0)]⟩ : BiMap (Fin 3) (Fin 3)) 2 2 =
      BiMap.insert_key ⟨[(0, 1)], [(1, 0)]⟩ 2 2 :=
  insert_value_eq_insert_key_sem ⟨[(0, 1)], [(1, 0)]⟩ (by decide) 2 2

theorem update_error_inv {m1 : List (T × U)} {m2 : List (U × T)} {v1 : T}
    {v2 : U} {e : List (T × U) × List (U × T)}
    (h : BidirectionalHashmap.update m1 m2 v1 v2 = Except.error e) :
    e = ((BidirectionalHashmap.remove m1 m2 v1).2.1,
      (BidirectionalHashmap.remove m1 m2 v1).2.2) := by
  cases hk : getm m1 v1 with
  | none =>
    rw [update_of_absent v2 hk] at h
    cases hi : BidirectionalHashmap.insert m1 m2 v1 v2 with
    | ok p =>
      obtain ⟨a, b⟩ := p
      rw [hi] at h
      exact Except.noConfusion h
    | error p =>
      rw [hi, Except.error.injEq] at h
      obtain ⟨-, hpe⟩ := insert_error_inv hi
      rw [← h, hpe, remove_eq_none hk]
  | some w =>
    rw [update_of_present v2 hk] at h
    cases hi : BidirectionalHashmap.insert (erasem m1 v1) (erasem m2 w) v1 v2 with
    | ok p =>
      obtain ⟨a, b⟩ := p
      rw [hi] at h
      exact Except.noConfusion h
    | error p =>
      rw [hi, Except.error.injEq] at h
      obtain ⟨-, hpe⟩ := insert_error_inv hi
      rw [← h, hpe, remove_eq_some hk]

theorem insert_key_ok_l2r {m m1 : BiMap T U} {l : T} {r : U}
    (h : m.insert_key l r = Except.ok m1) :
    m1.left_to_right = setm m.left_to_right l r := by
  cases hi : BidirectionalHashmap.insert m.left_to_right m.right_to_left l r with
  | ok p =>
    obtain ⟨n1, n2⟩ := p
    rw [insert_key_eq_ok hi, Except.ok.injEq] at h
    obtain ⟨-, hn1, -⟩ := insert_ok_inv hi
    rw [← h]
    exact hn1
  | error p =>
    obtain ⟨n1, n2⟩ := p
    rw [insert_key_eq_error hi] at h
    exact Except.noConfusion h

/-- C1 (amended): on an invariant-satisfying map, an insertion whose key is
already bound to a different value, or whose value is already bound to a
different key, does not return a recoverable CollisionError result: both
`insert_key` and `insert_value` abort on the failed assertion (a panic,
modelled by `Except.error`), with the map unmodified at the abort point. -/
theorem insert_collision_panics (m : BiMap T U) (hInv : m.Inv) (k : T) (v : U)
    (hcol : (∃ w, m.get_key k = some w ∧ w ≠ v) ∨
      (∃ k2, m.get_value v = some k2 ∧ k2 ≠ k)) :
    m.insert_key k v = Except.error m ∧ m.insert_value v k = Except.error m := by
  have hnotL : ¬ ((getm m.left_to_right k = none ∧ getm m.right_to_left v = none)
      ∨ getm m.left_to_right k = some v) := by
    rintro (⟨ha, hb⟩ | hsome)
    · rcases hcol with ⟨w, hw, -⟩ | ⟨k2, hk2, -⟩
      · rw [get_key_eq, ha] at hw
        exact Option.noConfusion hw
      · rw [get_value_eq, hb] at hk2
        exact Option.noConfusion hk2
    · rcases hcol with ⟨w, hw, hne⟩ | ⟨k2, hk2, hne⟩
      · rw [get_key_eq, hsome] at hw
        exact hne (Option.some_injective _ hw).symm
      · have hb := (hInv.2.2 k v).mp hsome
        rw [get_value_eq, hb] at hk2
        exact hne (Option.some_injective _ hk2).symm
  have hnotR : ¬ ((getm m.right_to_left v = none ∧ getm m.left_to_right k = none)
      ∨ getm m.right_to_left v = some k) := by
    rintro (⟨ha, hb⟩ | hsome)
    · exact hnotL (Or.inl ⟨hb, ha⟩)
    · exact hnotL (Or.inr ((hInv.2.2 k v).mpr hsome))
  constructor
  · exact insert_key_eq_error (insert_eq_error hnotL)
  · exact insert_value_eq_error (insert_eq_error hnotR)

/-- Witness for C1 (amended) at a concrete collision. -/
theorem insert_collision_panics_witness :
    BiMap.insert_key (⟨[(0, 1)], [(1, 0)]⟩ : BiMap (Fin 3) (Fin 3)) 0 2 =
        Except.error ⟨[(0, 1)], [(1, 0)]⟩ ∧
      BiMap.insert_value (⟨[(0, 1)], [(1, 0)]⟩ : BiMap (Fin 3) (Fin 3)) 2 0 =
        Except.error ⟨[(0, 1)], [(1, 0)]⟩ :=
  insert_collision_panics ⟨[(0, 1)], [(1, 0)]⟩ (by decide) 0 2 (by decide)

/-- C1 counterexample: on the map {1 ↦ 2}, the colliding call
`insert_key 1 3` does not produce a recoverable CollisionError result for
the caller — it hits the failed `assert!` of the source, a program-aborting
panic, modelled as `Except.error`. -/
theorem insert_collision_panics_cex :
    BiMap.insert_key (⟨[(1, 2)], [(2, 1)]⟩ : BiMap Nat Nat) 1 3 =
      Except.error ⟨[(1, 2)], [(2, 1)]⟩ :=
  rfl

/-- C4 (amended): after `insert_key k v` succeeds, inserting the same key
with a different value `v2 ≠ v` does not return a recoverable
CollisionError: it panics on the failed assertion; the assertion runs before
any mutation, so the map at the abort point is the unchanged post-insert
map, in which `get_key k` is still `some v`. -/
theorem insert_then_collide {m m1 : BiMap T U} {k : T} {v v2 : U}
    (hne : v2 ≠ v) (hok : m.insert_key k v = Except.ok m1) :
    m1.insert_key k v2 = Except.error m1 ∧ m1.get_key k = some v := by
  cases hi : BidirectionalHashmap.insert m.left_to_right m.right_to_left k v with
  | ok p =>
    obtain ⟨n1, n2⟩ := p
    rw [insert_key_eq_ok hi, Except.ok.injEq] at hok
    obtain ⟨hc, hn1, hn2⟩ := insert_ok_inv hi
    have hget1 : getm m1.left_to_right k = some v := by
      rw [← hok]
      show getm n1 k = some v
      rw [hn1]
      exact getm_setm_self _ _ _
    refine ⟨?_, hget1⟩
    have hnot : ¬ ((getm m1.left_to_right k = none ∧
        getm m1.right_to_left v2 = none) ∨
        getm m1.left_to_right k = some v2) := by
      rintro (⟨ha, -⟩ | hsome)
      · rw [hget1] at ha
        exact Option.noConfusion ha
      · rw [hget1] at hsome
        exact hne (Option.some_injective _ hsome).symm
    exact insert_key_eq_error (insert_eq_error hnot)
  | error p =>
    obtain ⟨n1, n2⟩ := p
    rw [insert_key_eq_error hi] at hok
    exact Except.noConfusion hok

/-- Witness for C4 (amended) at a concrete input. -/
theorem insert_then_collide_witness :
    BiMap.insert_key (⟨[(0, 1)], [(1, 0)]⟩ : BiMap (Fin 4) (Fin 4)) 0 2 =
        Except.error ⟨[(0, 1)], [(1, 0)]⟩ ∧
      BiMap.get_key (⟨[(0, 1)], [(1, 0)]⟩ : BiMap (Fin 4) (Fin 4)) 0 = some 1 :=
  insert_then_collide (by decide)
    (show BiMap.insert_key (BiMap.new : BiMap (Fin 4) (Fin 4)) 0 1 =
      Except.ok ⟨[(0, 1)], [(1, 0)]⟩ from rfl)

/-- C4 counterexample: after the successful `insert_key 5 6`, the second
call `insert_key 5 7` does not fail with a recoverable CollisionError — it
panics on the failed assertion (modelled by `Except.error`). -/
theorem insert_then_collide_cex :
    BiMap.insert_key (⟨[(5, 6)], [(6, 5)]⟩ : BiMap Nat Nat) 5 7 =
      Except.error ⟨[(5, 6)], [(6, 5)]⟩ :=
  rfl

/-- C2 (amended): if `update_key k new_v` fails because `new_v` is already
associated with a key other than `k`, the update is not rolled back to the
pre-call state: the call panics and the state at the abort is exactly the
post-remove state — the old pair of `k` was already deleted from both
tables and is not restored.  No table is left half-applied: the abort state
still satisfies the mirror invariant.  Symmetrically for `update_value`. -/
theorem update_collision_no_rollback (m : BiMap T U) (hInv : m.Inv) :
    (∀ k old v k2, m.get_key k = some old → m.get_value v = some k2 → k2 ≠ k →
      m.update_key k v = Except.error (m.remove k).2 ∧
        (m.remove k).2.get_key k = none ∧ ((m.remove k).2).Inv) ∧
    (∀ v old k v2, m.get_value v = some old → m.get_key k = some v2 → v2 ≠ v →
      m.update_value v k = Except.error (m.remove_value v).2 ∧
        (m.remove_value v).2.get_value v = none ∧ ((m.remove_value v).2).Inv) := by
  constructor
  · intro k old v k2 hk hv hne
    have hk2 : getm m.left_to_right k = some old := hk
    have hv2 : getm m.right_to_left v = some k2 := hv
    have hvold : v ≠ old := by
      intro e
      rw [e] at hv2
      have hmir := (hInv.2.2 k old).mp hk2
      rw [hmir] at hv2
      exact hne (Option.some_injective _ hv2).symm
    have hnot : ¬ ((getm (erasem m.left_to_right k) k = none ∧
        getm (erasem m.right_to_left old) v = none) ∨
        getm (erasem m.left_to_right k) k = some v) := by
      rintro (⟨-, hb⟩ | hsome)
      · rw [getm_erasem_ne hvold, hv2] at hb
        exact Option.noConfusion hb
      · rw [getm_erasem_self hInv.1] at hsome
        exact Option.noConfusion hsome
    have herr : BidirectionalHashmap.update m.left_to_right m.right_to_left k v
        = Except.error (erasem m.left_to_right k, erasem m.right_to_left old) := by
      rw [update_of_present v hk2, insert_eq_error hnot]
    have hrm : (m.remove k).2 =
        ⟨erasem m.left_to_right k, erasem m.right_to_left old⟩ := by
      rw [remove_key_def, remove_eq_some hk2]
    refine ⟨?_, ?_, Inv_remove hInv k⟩
    · rw [hrm]
      exact update_key_eq_error herr
    · rw [hrm]
      show getm (erasem m.left_to_right k) k = none
      exact getm_erasem_self hInv.1 k
  · intro v old k v2 hv hk hne
    have hv2 : getm m.right_to_left v = some old := hv
    have hk2 : getm m.left_to_right k = some v2 := hk
    have hkold : k ≠ old := by
      intro e
      rw [e] at hk2
      have hmir := (hInv.2.2 old v).mpr hv2
      rw [hmir] at hk2
      exact hne (Option.some_injective _ hk2).symm
    have hnot : ¬ ((getm (erasem m.right_to_left v) v = none ∧
        getm (erasem m.left_to_right old) k = none) ∨
        getm (erasem m.right_to_left v) v = some k) := by
      rintro (⟨-, hb⟩ | hsome)
      · rw [getm_erasem_ne hkold, hk2] at hb
        exact Option.noConfusion hb
      · rw [getm_erasem_self hInv.2.1] at hsome
        exact Option.noConfusion hsome
    have herr : BidirectionalHashmap.update m.right_to_left m.left_to_right v k
        = Except.error (erasem m.right_to_left v, erasem m.left_to_right old) := by
      rw [update_of_present k hv2, insert_eq_error hnot]
    have hrm : (m.remove_value v).2 =
        ⟨erasem m.left_to_right old, erasem m.right_to_left v⟩ := by
      rw [remove_value_def, remove_eq_some hv2]
    refine ⟨?_, ?_, Inv_remove_value hInv v⟩
    · rw [hrm]
      exact update_value_eq_error herr
    · rw [hrm]
      show getm (erasem m.right_to_left v) v = none
      exact getm_erasem_self hInv.2.1 v

/-- Witness for C2 (amended) at a concrete collision. -/
theorem update_collision_no_rollback_witness :
    BiMap.update_key (⟨[(0, 1), (2, 3)], [(1, 0), (3, 2)]⟩ : BiMap (Fin 4) (Fin 4))
        0 3 =
      Except.error ((⟨[(0, 1), (2, 3)], [(1, 0), (3, 2)]⟩ :
        BiMap (Fin 4) (Fin 4)).remove 0).2 ∧
      ((⟨[(0, 1), (2, 3)], [(1, 0), (3, 2)]⟩ :
        BiMap (Fin 4) (Fin 4)).remove 0).2.get_key 0 = none ∧
      (((⟨[(0, 1), (2, 3)], [(1, 0), (3, 2)]⟩ :
        BiMap (Fin 4) (Fin 4)).remove 0).2).Inv :=
  (update_collision_no_rollback ⟨[(0, 1), (2, 3)], [(1, 0), (3, 2)]⟩
    (by decide)).1 0 1 3 2 (by decide) (by decide) (by decide)

/-- C2 counterexample: on {1 ↦ 2, 3 ↦ 4}, the colliding `update_key 1 4`
aborts with the old pair (1, 2) already removed from both tables and not
restored — the state at the abort differs from the pre-call state, so the
claimed rollback does not happen. -/
theorem update_collision_no_rollback_cex :
    BiMap.update_key (⟨[(1, 2), (3, 4)], [(2, 1), (4, 3)]⟩ : BiMap Nat Nat) 1 4 =
        Except.error ⟨[(3, 4)], [(4, 3)]⟩ ∧
      (⟨[(3, 4)], [(4, 3)]⟩ : BiMap Nat Nat) ≠
        ⟨[(1, 2), (3, 4)], [(2, 1), (4, 3)]⟩ :=
  ⟨rfl, by decide⟩

/-- C10: whenever `update_key` (or `update_value`) aborts on a collision,
the two internal tables at the point of the abort are still exact mirrors of
each other: the abort state is precisely the post-remove state, where the
partial update has removed the old pair from both tables together, so no
one-sided dangling entry exists — although the removed old pair is not
restored. -/
theorem update_abort_tables_mirror (m : BiMap T U) (hInv : m.Inv) :
    (∀ k v m2, m.update_key k v = Except.error m2 →
      m2 = (m.remove k).2 ∧ m2.Inv) ∧
    (∀ v k m2, m.update_value v k = Except.error m2 →
      m2 = (m.remove_value v).2 ∧ m2.Inv) := by
  constructor
  · intro k v m2 herr
    cases hu : BidirectionalHashmap.update m.left_to_right m.right_to_left k v with
    | ok p =>
      obtain ⟨o, n1, n2⟩ := p
      rw [update_key_eq_ok hu] at herr
      exact Except.noConfusion herr
    | error p =>
      obtain ⟨n1, n2⟩ := p
      rw [update_key_eq_error hu, Except.error.injEq] at herr
      have hpe := update_error_inv hu
      rw [Prod.mk.injEq] at hpe
      constructor
      · rw [← herr, remove_key_def, hpe.1, hpe.2]
      · rw [← herr]
        show Mirror n1 n2
        rw [hpe.1, hpe.2]
        exact mirror_remove hInv k
  · intro v k m2 herr
    cases hu : BidirectionalHashmap.update m.right_to_left m.left_to_right v k with
    | ok p =>
      obtain ⟨o, n2, n1⟩ := p
      rw [update_value_eq_ok hu] at herr
      exact Except.noConfusion herr
    | error p =>
      obtain ⟨n2, n1⟩ := p
      rw [update_value_eq_error hu, Except.error.injEq] at herr
      have hpe := update_error_inv hu
      rw [Prod.mk.injEq] at hpe
      constructor
      · rw [← herr, remove_value_def, hpe.1, hpe.2]
      · rw [← herr]
        show Mirror n1 n2
        rw [hpe.1, hpe.2]
        exact Mirror.symm (mirror_remove (Mirror.symm hInv) v)

/-- Witness for C10 at a concrete aborting update. -/
theorem update_abort_tables_mirror_witness :
    (⟨[(2, 3)], [(3, 2)]⟩ : BiMap (Fin 4) (Fin 4)) =
        ((⟨[(0, 1), (2, 3)], [(1, 0), (3, 2)]⟩ :
          BiMap (Fin 4) (Fin 4)).remove 0).2 ∧
      (⟨[(2, 3)], [(3, 2)]⟩ : BiMap (Fin 4) (Fin 4)).Inv :=
  (update_abort_tables_mirror ⟨[(0, 1), (2, 3)], [(1, 0), (3, 2)]⟩
    (by decide)).1 0 3 ⟨[(2, 3)], [(3, 2)]⟩ rfl

/-- C5 (amended): provided the new value is not already associated with a
key other than `k` itself (otherwise the call panics, see the C5
counterexample), `update_key k v` behaves as claimed: when `k` is present
with old value `old` it removes the old pair, inserts `(k, v)` and returns
`some old`, preserving `len`; when `k` is absent it behaves exactly as a
plain `insert_key k v` paired with a `none` return.  The concrete scenario
of the spec — insert abc/xyz then update_key abc/def — holds as stated. -/
theorem update_key_semantics :
    (∀ (T U : Type) [DecidableEq T] [DecidableEq U] (m : BiMap T U) (k : T)
      (v : U), m.Inv →
      (∀ old, (∀ k2, m.get_value v = some k2 → k2 = k) →
        m.get_key k = some old →
        ∃ m2, m.update_key k v = Except.ok (some old, m2) ∧
          m2.get_key k = some v ∧ m2.get_value v = some k ∧
          (old ≠ v → m2.get_value old = none) ∧ m2.len = m.len) ∧
      (m.get_key k = none →
        m.update_key k v =
          Except.map (fun m2 => ((none : Option U), m2)) (m.insert_key k v))) ∧
    (∃ m1, BiMap.insert_key (BiMap.new : BiMap String String) "abc" "xyz" =
        Except.ok m1 ∧
      ∃ p, BiMap.update_key m1 "abc" "def" = Except.ok p ∧ p.1 = some "xyz" ∧
        p.2.get_key "abc" = some "def" ∧ p.2.get_value "xyz" = none ∧
        p.2.get_value "def" = some "abc" ∧ p.2.len = 1) := by
  constructor
  · intro T U instT instU m k v hInv
    constructor
    · intro old hnc hk
      have hk2 : getm m.left_to_right k = some old := hk
      have hv2none : getm (erasem m.right_to_left old) v = none := by
        by_cases hvo : v = old
        · rw [hvo]
          exact getm_erasem_self hInv.2.1 old
        · rw [getm_erasem_ne hvo]
          cases hg : getm m.right_to_left v with
          | none => rfl
          | some k2 =>
            have hke : k2 = k := hnc k2 hg
            rw [hke] at hg
            have hml := (hInv.2.2 k v).mpr hg
            rw [hk2] at hml
            have hov : old = v := Option.some_injective _ hml
            exact absurd hov.symm hvo
      have hk1none : getm (erasem m.left_to_right k) k = none :=
        getm_erasem_self hInv.1 k
      have hok : BidirectionalHashmap.insert (erasem m.left_to_right k)
          (erasem m.right_to_left old) k v =
          Except.ok (setm (erasem m.left_to_right k) k v,
            setm (erasem m.right_to_left old) v k) :=
        insert_eq_ok (Or.inl ⟨hk1none, hv2none⟩)
      have hupd : BidirectionalHashmap.update m.left_to_right m.right_to_left k v
          = Except.ok (some old, setm (erasem m.left_to_right k) k v,
            setm (erasem m.right_to_left old) v k) := by
        rw [update_of_present v hk2, hok]
      refine ⟨⟨setm (erasem m.left_to_right k) k v,
        setm (erasem m.right_to_left old) v k⟩, update_key_eq_ok hupd,
        ?_, ?_, ?_, ?_⟩
      · show getm (setm (erasem m.left_to_right k) k v) k = some v
        exact getm_setm_self _ _ _
      · show getm (setm (erasem m.right_to_left old) v k) v = some k
        exact getm_setm_self _ _ _
      · intro hov
        show getm (setm (erasem m.right_to_left old) v k) old = none
        rw [getm_setm_ne k hov]
        exact getm_erasem_self hInv.2.1 old
      · show (setm (erasem m.left_to_right k) k v).length =
          m.left_to_right.length
        rw [length_setm_of_getm_eq_none hk1none]
        exact length_erasem_of_getm_eq_some hk2
    · intro hk
      have hk2 : getm m.left_to_right k = none := hk
      cases hi : BidirectionalHashmap.insert m.left_to_right m.right_to_left k v with
      | ok p =>
        obtain ⟨n1, n2⟩ := p
        have hupd : BidirectionalHashmap.update m.left_to_right m.right_to_left k v
            = Except.ok (none, n1, n2) := by
          rw [update_of_absent v hk2, hi]
        rw [update_key_eq_ok hupd, insert_key_eq_ok hi]
        rfl
      | error p =>
        obtain ⟨n1, n2⟩ := p
        have hupd : BidirectionalHashmap.update m.left_to_right m.right_to_left k v
            = Except.error (n1, n2) := by
          rw [update_of_absent v hk2, hi]
        rw [update_key_eq_error hupd, insert_key_eq_error hi]
        rfl
  · exact ⟨⟨[("abc", "xyz")], [("xyz", "abc")]⟩, rfl,
      (some "xyz", ⟨[("abc", "def")], [("def", "abc")]⟩), rfl, rfl, rfl, rfl,
      rfl, rfl⟩

/-- Witness for C5 (amended) at a concrete present key. -/
theorem update_key_semantics_witness :
    ∃ m2, BiMap.update_key (⟨[(0, 1)], [(1, 0)]⟩ : BiMap (Fin 3) (Fin 3)) 0 2 =
        Except.ok (some 1, m2) ∧
      m2.get_key 0 = some 2 ∧ m2.get_value 2 = some 0 ∧
      ((1 : Fin 3) ≠ 2 → m2.get_value 1 = none) ∧
      m2.len = (⟨[(0, 1)], [(1, 0)]⟩ : BiMap (Fin 3) (Fin 3)).len :=
  (update_key_semantics.1 (Fin 3) (Fin 3) ⟨[(0, 1)], [(1, 0)]⟩ 0 2
    (by decide)).1 1 (by decide) (by decide)

/-- C5 counterexample: on {5 ↦ 6, 7 ↦ 8}, key 5 is present with value 6,
but `update_key 5 8` does not return the previous value: the re-insert of
(5, 8) collides with key 7 and the call panics, with the pair (5, 6) gone
at the abort point. -/
theorem update_key_semantics_cex :
    BiMap.get_key (⟨[(5, 6), (7, 8)], [(6, 5), (8, 7)]⟩ : BiMap Nat Nat) 5 =
        some 6 ∧
      BiMap.update_key (⟨[(5, 6), (7, 8)], [(6, 5), (8, 7)]⟩ : BiMap Nat Nat) 5 8
        = Except.error ⟨[(7, 8)], [(8, 7)]⟩ :=
  ⟨rfl, rfl⟩

theorem insertAll_inv {ps : List (T × U)} :
    ∀ {m0 m : BiMap T U}, m0.Inv → insertAll m0 ps = Except.ok m → m.Inv := by
  induction ps with
  | nil =>
    intro m0 m h0 h
    rw [insertAll, Except.ok.injEq] at h
    rw [← h]
    exact h0
  | cons p rest ih =>
    intro m0 m h0 h
    rw [insertAll] at h
    cases hi : m0.insert_key p.1 p.2 with
    | ok m1 =>
      rw [hi] at h
      exact ih (Inv_insert_key h0 hi) h
    | error e =>
      rw [hi] at h
      exact Except.noConfusion h

theorem insertAll_keys {ps : List (T × U)} :
    ∀ {m0 m : BiMap T U}, insertAll m0 ps = Except.ok m →
      ∀ a, getm m.left_to_right a ≠ none →
        getm m0.left_to_right a ≠ none ∨ a ∈ ps.map Prod.fst := by
  induction ps with
  | nil =>
    intro m0 m h a ha
    rw [insertAll, Except.ok.injEq] at h
    rw [← h] at ha
    exact Or.inl ha
  | cons p rest ih =>
    intro m0 m h a ha
    rw [insertAll] at h
    cases hi : m0.insert_key p.1 p.2 with
    | ok m1 =>
      rw [hi] at h
      rcases ih h a ha with h1 | h1
      · by_cases hap : a = p.1
        · refine Or.inr ?_
          rw [List.map_cons, hap]
          exact List.mem_cons_self _ _
        · rw [insert_key_ok_l2r hi, getm_setm_ne p.2 hap] at h1
          exact Or.inl h1
      · refine Or.inr ?_
        rw [List.map_cons]
        exact List.mem_cons_of_mem _ h1
    | error e =>
      rw [hi] at h
      exact Except.noConfusion h

theorem removeAll_of_keys_subset {ks : List T} :
    ∀ {m : BiMap T U}, m.Inv →
      (∀ a, getm m.left_to_right a ≠ none → a ∈ ks) →
      removeAll m ks = BiMap.new := by
  induction ks with
  | nil =>
    intro m hInv hsub
    have h1 : m.left_to_right = [] := by
      apply eq_nil_of_getm_eq_none
      intro key
      by_contra hne
      exact absurd (hsub key hne) (List.not_mem_nil key)
    have h2 : m.right_to_left = [] := by
      apply eq_nil_of_getm_eq_none
      intro v
      cases hv : getm m.right_to_left v with
      | none => rfl
      | some a =>
        have hl := (hInv.2.2 a v).mpr hv
        rw [h1] at hl
        exact Option.noConfusion hl
    rw [removeAll]
    cases m with
    | mk f b =>
      rw [show f = [] from h1, show b = [] from h2]
      rfl
  | cons k rest ih =>
    intro m hInv hsub
    rw [removeAll]
    apply ih (Inv_remove hInv k)
    intro a ha
    have ha2 : getm (BidirectionalHashmap.remove m.left_to_right
        m.right_to_left k).2.1 a ≠ none := by
      rw [remove_key_def] at ha
      exact ha
    cases hk : getm m.left_to_right k with
    | none =>
      rw [remove_eq_none hk] at ha2
      have ha3 : getm m.left_to_right a ≠ none := ha2
      have hmem := hsub a ha3
      rw [List.mem_cons] at hmem
      rcases hmem with he | hmem
      · rw [he] at ha3
        exact absurd hk ha3
      · exact hmem
    | some w =>
      rw [remove_eq_some hk] at ha2
      have ha3 : getm (erasem m.left_to_right k) a ≠ none := ha2
      by_cases hak : a = k
      · rw [hak, getm_erasem_self hInv.1] at ha3
        exact absurd rfl ha3
      · rw [getm_erasem_ne hak] at ha3
        have hmem := hsub a ha3
        rw [List.mem_cons] at hmem
        rcases hmem with he | hmem
        · exact absurd he hak
        · exact hmem

/-- C9: starting from the empty map, after any sequence of successful
inserts followed by `remove` on every inserted key, the map is empty again:
it equals `new`, `len` is zero and every lookup by any key or value is
absent. -/
theorem insert_remove_roundtrip (ps : List (T × U)) (m : BiMap T U)
    (h : insertAll BiMap.new ps = Except.ok m) :
    removeAll m (ps.map Prod.fst) = BiMap.new ∧
      (removeAll m (ps.map Prod.fst)).len = 0 ∧
      (∀ k, (removeAll m (ps.map Prod.fst)).get_key k = none) ∧
      (∀ v, (removeAll m (ps.map Prod.fst)).get_value v = none) := by
  have hInv : m.Inv := insertAll_inv Inv_new h
  have hkeys : ∀ a, getm m.left_to_right a ≠ none → a ∈ ps.map Prod.fst := by
    intro a ha
    rcases insertAll_keys h a ha with h1 | h1
    · exact absurd rfl h1
    · exact h1
  have hempty := removeAll_of_keys_subset hInv hkeys
  refine ⟨hempty, ?_, ?_, ?_⟩
  · rw [hempty]
    rfl
  · intro k
    rw [hempty]
    rfl
  · intro v
    rw [hempty]
    rfl

/-- Witness for C9 at a concrete two-element insert sequence. -/
theorem insert_remove_roundtrip_witness :
    removeAll (⟨[(1, 10), (2, 20)], [(10, 1), (20, 2)]⟩ : BiMap Nat Nat)
        ([(1, 10), (2, 20)].map Prod.fst) = BiMap.new ∧
      (removeAll (⟨[(1, 10), (2, 20)], [(10, 1), (20, 2)]⟩ : BiMap Nat Nat)
        ([(1, 10), (2, 20)].map Prod.fst)).len = 0 ∧
      (∀ k, (removeAll (⟨[(1, 10), (2, 20)], [(10, 1), (20, 2)]⟩ : BiMap Nat Nat)
        ([(1, 10), (2, 20)].map Prod.fst)).get_key k = none) ∧
      (∀ v, (removeAll (⟨[(1, 10), (2, 20)], [(10, 1), (20, 2)]⟩ : BiMap Nat Nat)
        ([(1, 10), (2, 20)].map Prod.fst)).get_value v = none) :=
  insert_remove_roundtrip [(1, 10), (2, 20)]
    ⟨[(1, 10), (2, 20)], [(10, 1), (20, 2)]⟩ rfl

end BidirectionalHashmap
